import Mathlib

/-!
Shallow embedding of the `sha3sum` crate (src/lib.rs, src/main.rs) and
verification of its specification claims.

Machine integers are embedded as `Nat` with explicit reduction modulo `2 ^ 64`
where the Rust code relies on the width of `u64`.  The 5×5 state of `u64`
lanes is a `List (List Nat)`; indexing uses `getD`, and separate theorems show
every index the code uses is in bounds.  File input is a `List Nat` of byte
values; the `BufReader::read_exact` loop is embedded as a list of read
outcomes, so that both the ordinary file path (full blocks, then a short or
empty `UnexpectedEof` read) and failing reads can be analysed.
-/

namespace Sha3sum

/-- Byte-aligned domain-separation suffix (bits 01100000), `SHA_SUFFIX` in the
source. -/
def SHA_SUFFIX : Nat := 96

/-- Centered array map `CAM` from the source. -/
def CAM : List Nat := [2, 3, 4, 0, 1]

/-- Rotation-offset table `RHO_TABLE` from the source (entries up to 300). -/
def RHO_TABLE : List (List Nat) :=
  [[21, 120, 28, 55, 153],
   [136, 78, 91, 276, 231],
   [105, 210, 0, 36, 3],
   [45, 66, 1, 300, 10],
   [15, 253, 190, 6, 171]]

/-- Round-constant table `IOTA_TABLE` from the source. -/
def IOTA_TABLE : List Nat :=
  [9223372036854775808,
   4684025087442026496,
   5836946592048873473,
   281479271677953,
   15060318628903649280,
   9223372041149743104,
   9295711110164381697,
   10376575016438333441,
   5836665117072162816,
   1224979098644774912,
   10376575020733300736,
   5764607527329202176,
   15060318633198616576,
   15060037153926938625,
   10448632610476261377,
   13835339530258874369,
   4611967493404098561,
   72057594037927937,
   5764888998010945536,
   5764607527329202177,
   9295711110164381697,
   72339069014638593,
   9223372041149743104,
   1153202983878524929]

/-- Inner 8-step loop of the byte-bit-reversal routines: each step shifts the
accumulator left and appends the low bit of the remaining byte. -/
def revBitsAux : Nat → Nat → Nat → Nat
  | 0, _, acc => acc
  | n + 1, b, acc => revBitsAux n (b >>> 1) ((acc <<< 1) ||| (b &&& 1))

/-- Reversal of the 8 bits of one byte, as performed per byte by
`reverse_bits_in_place` and `static_reverse_u64_bits`. -/
def reverseByte (b : Nat) : Nat := revBitsAux 8 b 0

/-- Body of `Sponge::reverse_bits_in_place`: reverse the bits of every byte of
the buffer. -/
def reverse_bits_in_place (buf : List Nat) : List Nat := buf.map reverseByte

/-- Embedding of Rust `u64::rotate_right`: the rotation amount is taken modulo
64, and the result is a 64-bit word. -/
def rotr64 (w n : Nat) : Nat :=
  let k := n % 64
  (w >>> k) ||| ((w % 2 ^ k) <<< (64 - k))

/-- Big-endian byte decomposition of a `u64`, as `u64::to_be_bytes`. -/
def toBeBytes (w : Nat) : List Nat :=
  (List.range 8).map fun i => (w >>> (8 * (7 - i))) % 256

/-- Reassembly of a big-endian byte sequence, as `u64::from_be_bytes`. -/
def fromBeBytes (bs : List Nat) : Nat :=
  bs.foldl (fun acc b => acc * 256 + b) 0

/-- Embedding of `static_reverse_u64_bits`: split into big-endian bytes,
reverse the bits of each byte, reassemble. -/
def static_reverse_u64_bits (w : Nat) : Nat :=
  fromBeBytes ((toBeBytes w).map reverseByte)

/-- The 5×5 grid of 64-bit lanes (`state: [[u64; 5]; 5]`), row `x` holding the
five lanes `state[x][0..5]`. -/
abbrev State : Type := List (List Nat)

/-- Read of `state[x][y]`. -/
def sget (s : State) (x y : Nat) : Nat := (s.getD x []).getD y 0

/-- Write of `state[x][y] = v`. -/
def sset (s : State) (x y v : Nat) : State := s.set x ((s.getD x []).set y v)

/-- Construction of a full 5×5 grid from a function of the two indices (the
`for x in 0..=4 { for y in 0..=4 { ... } }` rebuild pattern). -/
def grid (f : Nat → Nat → Nat) : State :=
  (List.range 5).map fun x => (List.range 5).map fun y => f x y

/-- Column parities `c[x]` computed first by `Sponge::theta`. -/
def cTheta (s : State) (x : Nat) : Nat :=
  sget s x 0 ^^^ sget s x 1 ^^^ sget s x 2 ^^^ sget s x 3 ^^^ sget s x 4

/-- Correction values `d[x]` of `Sponge::theta`. -/
def dTheta (s : State) (x : Nat) : Nat :=
  cTheta s ((x + 4) % 5) ^^^ rotr64 (cTheta s ((x + 1) % 5)) 1

/-- Embedding of `Sponge::theta`. -/
def theta (s : State) : State := grid fun x y => sget s x y ^^^ dTheta s x

/-- Embedding of `Sponge::rho`, parameterised by the rotation table so the
given table can be compared with its mod-64 reduction. -/
def rhoT (table : List (List Nat)) (s : State) : State :=
  grid fun x y =>
    rotr64 (sget s x y) ((table.getD (CAM.getD x 0) []).getD (CAM.getD y 0) 0)

/-- Embedding of `Sponge::rho`. -/
def rho (s : State) : State := rhoT RHO_TABLE s

/-- Embedding of `Sponge::pi`. -/
def pi (s : State) : State := grid fun x y => sget s ((x + 3 * y) % 5) x

/-- Bitwise complement of a `u64`. -/
def not64 (v : Nat) : Nat := v ^^^ (2 ^ 64 - 1)

/-- Embedding of `Sponge::chi`. -/
def chi (s : State) : State :=
  grid fun x y =>
    sget s x y ^^^ (not64 (sget s ((x + 1) % 5) y) &&& sget s ((x + 2) % 5) y)

/-- Embedding of `Sponge::iota`. -/
def iota (s : State) (round : Nat) : State :=
  sset s 0 0 (sget s 0 0 ^^^ IOTA_TABLE.getD round 0)

/-- One round of the permutation as called in `Sponge::absorb`:
θ, ρ, π, χ, ι in that order. -/
def keccakRound (s : State) (round : Nat) : State :=
  iota (chi (pi (rho (theta s)))) round

/-- The full 24-round permutation (`for round in 0..=23`). -/
def keccakP (s : State) : State := (List.range 24).foldl keccakRound s

/-- The four digest modes; each constructor carries its byte-rate payload as
the Rust enum does. -/
inductive Mode where
  | sha3_224 (rate : Nat)
  | sha3_256 (rate : Nat)
  | sha3_384 (rate : Nat)
  | sha3_512 (rate : Nat)
deriving DecidableEq

deriving instance DecidableEq for Except

/-- The `bit_rate` bound by the four-armed `match self.mode` in
`absorb`/`squeeze`. -/
def Mode.bitRate : Mode → Nat
  | .sha3_224 bit_rate => bit_rate
  | .sha3_256 bit_rate => bit_rate
  | .sha3_384 bit_rate => bit_rate
  | .sha3_512 bit_rate => bit_rate

/-- Lowercasing of one character as `str::to_lowercase` acts on the basic
latin range: an upper case letter (code 65 to 90) moves down to its lower case
form, every other character is unchanged. -/
def charToLower (c : Char) : Char :=
  if 65 ≤ c.toNat ∧ c.toNat ≤ 90 then Char.ofNat (c.toNat + 32) else c

/-- Embedding of `value.to_lowercase()`: lowercase every character. -/
def strToLower (s : String) : String := String.mk (s.data.map charToLower)

/-- Embedding of `Mode::try_from(&String)`: lowercase the selector and match
it against the four accepted strings. -/
def Mode.tryFrom (value : String) : Except String Mode :=
  let lower := strToLower value
  if lower = "224" then .ok (.sha3_224 144)
  else if lower = "256" then .ok (.sha3_256 136)
  else if lower = "384" then .ok (.sha3_384 104)
  else if lower = "512" then .ok (.sha3_512 72)
  else .error "Invalide mode selected"

/-- Embedding of `Mode::default()`. -/
def Mode.default : Mode := .sha3_224 144

/-- The sponge: one `Mode` bound to one `State`. -/
structure Sponge where
  mode : Mode
  state : State

/-- Embedding of `Sponge::new`: the chosen mode with the all-zero state. -/
def Sponge.new (mode : Mode) : Sponge :=
  ⟨mode, List.replicate 5 (List.replicate 5 0)⟩

/-- Outcome of one `read_exact` call on the input source: a fully filled
buffer, an `UnexpectedEof` with the bytes that were filled before end of
input, or an I/O error of any other kind (buffer contents unspecified, so the
outcome carries whatever bytes the buffer holds). -/
inductive ReadOutcome where
  | full (bytes : List Nat)
  | eof (bytes : List Nat)
  | ioErr (bytes : List Nat)
deriving DecidableEq

/-- Fuel-driven block reader; the fuel only serves structural recursion and
`fileReads` always supplies enough of it. -/
def fileReadsAux : Nat → Nat → List Nat → List ReadOutcome
  | 0, _, input => [.eof input]
  | fuel + 1, rate, input =>
    if 0 < rate ∧ rate ≤ input.length then
      .full (input.take rate) :: fileReadsAux fuel rate (input.drop rate)
    else
      [.eof input]

/-- The sequence of `read_exact` outcomes produced by reading a file of the
given bytes in blocks of `rate`: full blocks while at least `rate` bytes
remain, then one short (possibly empty) read that hits end of input. -/
def fileReads (rate : Nat) (input : List Nat) : List ReadOutcome :=
  fileReadsAux (input.length + 1) rate input

/-- Contents of the freshly zeroed `rate`-byte buffer after the `read_exact`
call: a full read fills it, an end-of-input read fills the prefix it could
read and leaves the zero tail, a failed read leaves unspecified contents. -/
def readBuffer (rate : Nat) : ReadOutcome → List Nat
  | .full bytes => bytes
  | .eof bytes => bytes ++ List.replicate (rate - bytes.length) 0
  | .ioErr bytes => bytes

/-- The padding writes of the `UnexpectedEof` arm of `Sponge::absorb`:
at `padding_start_index = file_size % rate`, either the single combined byte
`SHA_SUFFIX + 1` (when only one slot remains) or `SHA_SUFFIX` there plus a
`1` byte at offset `rate - 1`. -/
def padBuffer (rate file_size : Nat) (buffer : List Nat) : List Nat :=
  let padding_start_index := file_size % rate
  if padding_start_index = rate - 1 then
    buffer.set padding_start_index (SHA_SUFFIX + 1)
  else
    (buffer.set padding_start_index SHA_SUFFIX).set (rate - 1) 1

/-- Folding one buffer into the state: lane `i` (for `i < rate / 8`) is the
8 bytes at offset `8 i`, read big-endian and XORed into
`state[i % 5][i / 5]`. -/
def foldBlock (rate : Nat) (buffer : List Nat) (s : State) : State :=
  (List.range (rate / 8)).foldl
    (fun st lane =>
      sset st (lane % 5) (lane / 5)
        (sget st (lane % 5) (lane / 5) ^^^
          fromBeBytes ((buffer.drop (lane * 8)).take 8)))
    s

/-- The `while !break_flag` loop of `Sponge::absorb` over a sequence of read
outcomes.  Each iteration bit-mirrors the buffer, pads it when the read hit
end of input (setting `break_flag`), XORs it into the state and runs the
24-round permutation.  Returns the final state and the number of
fold-and-permute iterations, or `none` when the outcome list is exhausted
without the loop ever breaking (the loop would keep reading). -/
def absorbLoop (rate file_size : Nat) : List ReadOutcome → State → Option (State × Nat)
  | [], _ => none
  | r :: rest, s =>
    let buffer := reverse_bits_in_place (readBuffer rate r)
    let buffer := match r with
      | .eof _ => padBuffer rate file_size buffer
      | _ => buffer
    let break_flag := match r with
      | .eof _ => true
      | _ => false
    let s := keccakP (foldBlock rate buffer s)
    if break_flag then some (s, 1)
    else (absorbLoop rate file_size rest s).map fun p => (p.1, p.2 + 1)

/-- Embedding of `Sponge::absorb` reading a file whose content is `input`:
`file_size` is the metadata size (the content length) and the reads are the
ones an ordinary file produces. -/
def Sponge.absorb (sp : Sponge) (input : List Nat) : Option Sponge :=
  let file_size := input.length
  let bit_rate := sp.mode.bitRate
  (absorbLoop bit_rate file_size (fileReads bit_rate input) sp.state).map
    fun p => Sponge.mk sp.mode p.1

/-- Number of permutation calls `Sponge::absorb` performs on a file with
content `input`. -/
def Sponge.permCount (sp : Sponge) (input : List Nat) : Option Nat :=
  (absorbLoop sp.mode.bitRate input.length (fileReads sp.mode.bitRate input)
    sp.state).map fun p => p.2

/-- Lowercase hex digit for a value below 16: 0 to 9 render as the digit
characters (codes 48 to 57), 10 to 15 as 'a' to 'f' (codes 97 to 102). -/
def hexDigit (n : Nat) : Char :=
  if n < 10 then Char.ofNat (48 + n) else Char.ofNat (87 + n)

/-- Fuel-driven hex renderer; the fuel only serves structural recursion and
`natToHexDigits` always supplies enough of it. -/
def natToHexAux : Nat → Nat → List Char
  | 0, n => [hexDigit n]
  | fuel + 1, n =>
    if n < 16 then [hexDigit n]
    else natToHexAux fuel (n / 16) ++ [hexDigit (n % 16)]

/-- Hex digits of a number, most significant first (`0` renders as "0"). -/
def natToHexDigits (n : Nat) : List Char := natToHexAux n n

/-- Embedding of `format!("\x7b:016x\x7d", w)`: lowercase hex, left-padded
with zeros to at least 16 characters. -/
def format016x (w : Nat) : String :=
  let ds := natToHexDigits w
  String.mk (List.replicate (16 - ds.length) '0' ++ ds)

/-- Embedding of Rust `String::truncate` on ASCII content. -/
def truncateStr (s : String) (n : Nat) : String := String.mk (s.data.take n)

/-- Embedding of `Sponge::squeeze`: bit-mirror every lane, serialise
`bit_rate / 8` lanes as 16 hex characters each in lane order, and truncate to
the mode's digest length in hex characters. -/
def Sponge.squeeze (sp : Sponge) : String :=
  let bit_rate := sp.mode.bitRate
  let s := grid fun x y => static_reverse_u64_bits (sget sp.state x y)
  let output_hex := String.join
    ((List.range (bit_rate / 8)).map fun lane =>
      format016x (sget s (lane % 5) (lane / 5)))
  match sp.mode with
  | .sha3_224 _ => truncateStr output_hex (224 / 4)
  | .sha3_256 _ => truncateStr output_hex (256 / 4)
  | .sha3_384 _ => truncateStr output_hex (384 / 4)
  | .sha3_512 _ => truncateStr output_hex (512 / 4)

/-- Whole digest computation as `main` performs it per argument: a fresh
sponge for the mode, absorb the file content, squeeze. -/
def sha3File (mode : Mode) (input : List Nat) : Option String :=
  ((Sponge.new mode).absorb input).map Sponge.squeeze

/-- Fuel-driven companion of `fileReadsAux` listing only the full data
blocks. -/
def dataBlocksAux : Nat → Nat → List Nat → List (List Nat)
  | 0, _, _ => []
  | fuel + 1, rate, input =>
    if 0 < rate ∧ rate ≤ input.length then
      input.take rate :: dataBlocksAux fuel rate (input.drop rate)
    else
      []

/-- The full `rate`-byte data blocks of the input, in order. -/
def dataBlocks (rate : Nat) (input : List Nat) : List (List Nat) :=
  dataBlocksAux (input.length + 1) rate input

/-- The trailing partial block of the input: what the last, short,
end-of-input read returns. -/
def finalChunk (rate : Nat) (input : List Nat) : List Nat :=
  input.drop (input.length / rate * rate)

/-- Absorption of a list of full data blocks: each is bit-mirrored, folded
into the state and followed by one permutation call. -/
def absorbDataBlocks (rate : Nat) (blocks : List (List Nat)) (s : State) : State :=
  blocks.foldl (fun st b => keccakP (foldBlock rate (reverse_bits_in_place b) st)) s

/-- The all-padding block absorbed when the input length is an exact multiple
of the rate: zero bytes with the suffix at offset 0 and the terminator at
offset `rate - 1`. -/
def padOnlyBlock (rate : Nat) : List Nat :=
  ((List.replicate rate 0).set 0 SHA_SUFFIX).set (rate - 1) 1

/-- The four modes as the program constructs them (`Mode::try_from` and
`Mode::default`), with their fixed rates. -/
def standardModes : List Mode :=
  [.sha3_224 144, .sha3_256 136, .sha3_384 104, .sha3_512 72]

/-- Digest length in hex characters required by the spec for each mode. -/
def digestHexLen : Mode → Nat
  | .sha3_224 _ => 56
  | .sha3_256 _ => 64
  | .sha3_384 _ => 96
  | .sha3_512 _ => 128

/-- Bit `z` of a lane in the standard bit-numbering of the Keccak
specification.  A stored lane word is assembled big-endian from bit-mirrored
bytes, so lane bit `z` (bit `z % 8` of message byte `z / 8` of the lane)
sits at position `63 - z` of the stored word. -/
def laneBit (w z : Nat) : Bool := w.testBit (63 - z)

/-- All in-range lanes of a state fit in 64 bits. -/
def StateBounded (s : State) : Prop :=
  ∀ x, x < 5 → ∀ y, y < 5 → sget s x y < 2 ^ 64

instance (s : State) : Decidable (StateBounded s) := by
  unfold StateBounded; infer_instance

theorem sget_grid (f : Nat → Nat → Nat) (x y : Nat) (hx : x < 5) (hy : y < 5) :
    sget (grid f) x y = f x y := by
  interval_cases x <;> interval_cases y <;> rfl

theorem cTheta_lt (s : State) (hs : StateBounded s) (x : Nat) (hx : x < 5) :
    cTheta s x < 2 ^ 64 := by
  have h0 := hs x hx 0 (by omega)
  have h1 := hs x hx 1 (by omega)
  have h2 := hs x hx 2 (by omega)
  have h3 := hs x hx 3 (by omega)
  have h4 := hs x hx 4 (by omega)
  exact Nat.xor_lt_two_pow
    (Nat.xor_lt_two_pow (Nat.xor_lt_two_pow (Nat.xor_lt_two_pow h0 h1) h2) h3) h4

theorem testBit_rotr64_one (w : Nat) (hw : w < 2 ^ 64) (i : Nat) (hi : i < 64) :
    (rotr64 w 1).testBit i = w.testBit ((i + 1) % 64) := by
  have hrw : rotr64 w 1 = (w >>> 1) ||| ((w % 2 ^ 1) <<< 63) := rfl
  rw [hrw]
  rcases Nat.lt_or_ge i 63 with h | h
  · have h64 : (i + 1) % 64 = i + 1 := Nat.mod_eq_of_lt (by omega)
    have h63 : ¬(63 ≤ i) := by omega
    simp [Nat.testBit_or, Nat.testBit_shiftRight, Nat.testBit_shiftLeft, h63,
      Nat.add_comm 1 i, h64]
  · have hi63 : i = 63 := by omega
    subst hi63
    have h64 : w.testBit (1 + 63) = false := Nat.testBit_lt_two_pow hw
    simp [Nat.testBit_or, Nat.testBit_shiftRight, Nat.testBit_shiftLeft,
      Nat.testBit_mod_two_pow, h64]

/-- C2: in the θ step, the value XORed into every lane of column `x` is the
single correction `d[x]`, and in the standard lane-bit numbering (bit `z` of
the stored word is `laneBit · z`) that correction is the parity of column
`(x - 1) mod 5` XORed with the parity of column `(x + 1) mod 5` rotated left
by 1 bit (its bit `z` coming from parity bit `(z - 1) mod 64`). -/
theorem sha3_c2 (s : State) (x y z : Nat) (hs : StateBounded s)
    (hx : x < 5) (hy : y < 5) (hz : z < 64) :
    sget (theta s) x y = sget s x y ^^^ dTheta s x ∧
    laneBit (dTheta s x) z =
      ((laneBit (cTheta s ((x + 4) % 5)) z).xor
        (laneBit (cTheta s ((x + 1) % 5)) ((z + 63) % 64))) := by
  constructor
  · exact sget_grid _ x y hx hy
  · have hc1 : cTheta s ((x + 1) % 5) < 2 ^ 64 :=
      cTheta_lt s hs _ (Nat.mod_lt _ (by omega))
    unfold dTheta laneBit
    rw [Nat.testBit_xor]
    congr 1
    rw [testBit_rotr64_one _ hc1 _ (by omega)]
    congr 1
    omega

/-- Witness for C2 at a concrete bounded state and concrete indices. -/
theorem sha3_c2_witness :
    StateBounded
        [[1, 2, 3, 4, 5], [6, 7, 8, 9, 10], [11, 12, 13, 14, 15],
          [16, 17, 18, 19, 20], [21, 22, 23, 24, 25]] ∧
      1 < 5 ∧ 2 < 5 ∧ 7 < 64 ∧
      (sget (theta [[1, 2, 3, 4, 5], [6, 7, 8, 9, 10], [11, 12, 13, 14, 15],
            [16, 17, 18, 19, 20], [21, 22, 23, 24, 25]]) 1 2 =
          sget [[1, 2, 3, 4, 5], [6, 7, 8, 9, 10], [11, 12, 13, 14, 15],
            [16, 17, 18, 19, 20], [21, 22, 23, 24, 25]] 1 2 ^^^
            dTheta [[1, 2, 3, 4, 5], [6, 7, 8, 9, 10], [11, 12, 13, 14, 15],
              [16, 17, 18, 19, 20], [21, 22, 23, 24, 25]] 1 ∧
        laneBit (dTheta [[1, 2, 3, 4, 5], [6, 7, 8, 9, 10],
            [11, 12, 13, 14, 15], [16, 17, 18, 19, 20],
            [21, 22, 23, 24, 25]] 1) 7 =
          ((laneBit (cTheta [[1, 2, 3, 4, 5], [6, 7, 8, 9, 10],
              [11, 12, 13, 14, 15], [16, 17, 18, 19, 20],
              [21, 22, 23, 24, 25]] ((1 + 4) % 5)) 7).xor
            (laneBit (cTheta [[1, 2, 3, 4, 5], [6, 7, 8, 9, 10],
              [11, 12, 13, 14, 15], [16, 17, 18, 19, 20],
              [21, 22, 23, 24, 25]] ((1 + 1) % 5)) ((7 + 63) % 64)))) :=
  ⟨by decide, by decide, by decide, by decide,
    sha3_c2 _ 1 2 7 (by decide) (by decide) (by decide) (by decide)⟩

set_option maxRecDepth 1000000 in
/-- C3: the `_ => ()` arm for non-end-of-input read errors neither aborts nor
marks the final block: the erroring iteration absorbs the (unspecified)
buffer exactly like an ordinary data block and the loop continues, and with a
subsequent end-of-input read the computation completes and produces a digest
(one that differs from the digest of the file's real content). -/
theorem sha3_c3 :
    (∀ (bytes : List Nat) (rest : List ReadOutcome) (s : State),
        absorbLoop 136 136 (ReadOutcome.ioErr bytes :: rest) s =
          (absorbLoop 136 136 rest
              (keccakP (foldBlock 136 (reverse_bits_in_place bytes) s))).map
            (fun p => (p.1, p.2 + 1))) ∧
    (absorbLoop 136 136
        [ReadOutcome.ioErr (List.replicate 136 0), ReadOutcome.eof []]
        (Sponge.new (Mode.sha3_256 136)).state).map
      (fun p => ((Sponge.mk (Mode.sha3_256 136) p.1).squeeze, p.2)) =
      some ("e772c9cf9eb9c991cdfcf125001b454fdbc0a95f188d1b4c844aa032ad6e075e", 2) ∧
    sha3File (Mode.sha3_256 136) (List.replicate 136 170) =
      some "6f278ae138cc332bc4e3db94fc8e7d4f243af3f36e21a7eda3a7fca7fd65bd24" :=
  ⟨fun bytes rest s => rfl, by decide, by decide⟩

/-- C8: the digest is a pure function of the mode and the input bytes; two
independently constructed sponges of the same mode produce identical
digests, equal to the single digest function of mode and input. -/
theorem sha3_c8 (mode : Mode) (input : List Nat) (sp1 sp2 : Sponge)
    (h1 : sp1 = Sponge.new mode) (h2 : sp2 = Sponge.new mode) :
    (sp1.absorb input).map Sponge.squeeze = (sp2.absorb input).map Sponge.squeeze ∧
    (sp1.absorb input).map Sponge.squeeze = sha3File mode input := by
  subst h1; subst h2; exact ⟨rfl, rfl⟩

/-- Witness for C8 at a concrete mode and input. -/
theorem sha3_c8_witness :
    Sponge.new (Mode.sha3_256 136) = Sponge.new (Mode.sha3_256 136) ∧
    (((Sponge.new (Mode.sha3_256 136)).absorb [97]).map Sponge.squeeze =
        ((Sponge.new (Mode.sha3_256 136)).absorb [97]).map Sponge.squeeze ∧
      ((Sponge.new (Mode.sha3_256 136)).absorb [97]).map Sponge.squeeze =
        sha3File (Mode.sha3_256 136) [97]) :=
  ⟨rfl, sha3_c8 (Mode.sha3_256 136) [97] _ _ rfl rfl⟩

/-- C10: the rotation table has entries above 63 (none above 300, and 300
occurs), and ρ computed with it equals ρ computed with every entry reduced
modulo 64, because `u64::rotate_right` takes its amount modulo 64. -/
theorem sha3_c10 :
    (∃ row ∈ RHO_TABLE, ∃ e ∈ row, 63 < e) ∧
    (∀ row ∈ RHO_TABLE, ∀ e ∈ row, e ≤ 300) ∧
    (∃ row ∈ RHO_TABLE, 300 ∈ row) ∧
    ∀ s : State, rho s = rhoT (RHO_TABLE.map (List.map (fun e => e % 64))) s :=
  ⟨by decide, by decide, by decide, fun s => rfl⟩

/-- Witness for C10: its bounded-quantifier part applied to one concrete
table row and entry. -/
theorem sha3_c10_witness : (120 : Nat) ≤ 300 :=
  sha3_c10.2.1 [21, 120, 28, 55, 153] (by decide) 120 (by decide)

set_option maxRecDepth 1000000 in
/-- C1: absorbing the empty input into a fresh sponge of each supported mode
and then squeezing produces the standard published SHA3 empty-string digest
for that width; in particular the 256-bit mode's empty-input digest is the
standard published 64-hex-character value. -/
theorem sha3_c1 :
    sha3File (Mode.sha3_224 144) [] =
      some "6b4e03423667dbb73b6e15454f0eb1abd4597f9a1b078e3f5b5a6bc7" ∧
    sha3File (Mode.sha3_256 136) [] =
      some "a7ffc6f8bf1ed76651c14756a061d662f580ff4de43b49fa82d80a4b80f8434a" ∧
    sha3File (Mode.sha3_384 104) [] =
      some "0c63a75b845e4f7d01107d852e4c2485c51a50aaaa94fc61995e71bbee983a2ac3713831264adb47fb6bd1e058d5f004" ∧
    sha3File (Mode.sha3_512 72) [] =
      some "a69f73cca23a9ac5c8b567dc185a756e97c982164fe25859e0d1dcc1475c80a615b2123af1f5f94c11e3e9402c3ac558f500199d95b6d3e301758586281dcd26" :=
  ⟨by decide, by decide, by decide, by decide⟩

theorem toNat_ofNat_of_le (m : Nat) (hm : m ≤ 122) : (Char.ofNat m).toNat = m := by
  rw [Char.ofNat, dif_pos (Or.inl (by omega))]
  rfl

theorem charToLower_eq_of_lt (c d : Char) (hd : d.toNat < 97)
    (h : charToLower c = d) : c = d := by
  unfold charToLower at h
  split at h
  · exfalso
    have hval : (Char.ofNat (c.toNat + 32)).toNat = c.toNat + 32 :=
      toNat_ofNat_of_le _ (by omega)
    rw [h] at hval
    omega
  · exact h

theorem map_charToLower_eq (l tgt : List Char) (htgt : ∀ d ∈ tgt, d.toNat < 97)
    (h : l.map charToLower = tgt) : l = tgt := by
  induction l generalizing tgt with
  | nil => exact h
  | cons a as ih =>
    subst h
    have ha : a = charToLower a :=
      charToLower_eq_of_lt a _ (htgt _ (by simp)) rfl
    have has : as = as.map charToLower :=
      ih _ (fun d hd => htgt d (by simp [hd])) rfl
    simpa using congrArg₂ List.cons ha.symm has.symm |>.symm

theorem strToLower_eq_of_digits (value t : String)
    (ht : ∀ d ∈ t.data, d.toNat < 97) (h : strToLower value = t) : value = t := by
  obtain ⟨data⟩ := value
  obtain ⟨tdata⟩ := t
  have hd : data.map charToLower = tdata := congrArg String.data h
  exact congrArg String.mk (map_charToLower_eq _ _ ht hd)

/-- C7: mode construction succeeds exactly on the selectors "224", "256",
"384", "512" (the comparison lowercases the selector first, and no other
string lowercases to one of the four), mapping them to the variants with
rates 144, 136, 104 and 72; every other string yields the invalid-mode
error. -/
theorem sha3_c7 (value : String) :
    (Mode.tryFrom value = .ok (Mode.sha3_224 144) ↔ value = "224") ∧
    (Mode.tryFrom value = .ok (Mode.sha3_256 136) ↔ value = "256") ∧
    (Mode.tryFrom value = .ok (Mode.sha3_384 104) ↔ value = "384") ∧
    (Mode.tryFrom value = .ok (Mode.sha3_512 72) ↔ value = "512") ∧
    (strToLower value ∉ (["224", "256", "384", "512"] : List String) →
      Mode.tryFrom value = .error "Invalide mode selected") ∧
    ((Mode.tryFrom value).isOk ↔
      strToLower value ∈ (["224", "256", "384", "512"] : List String)) := by
  by_cases h1 : strToLower value = "224"
  · obtain rfl := strToLower_eq_of_digits value "224" (by decide) h1
    decide
  by_cases h2 : strToLower value = "256"
  · obtain rfl := strToLower_eq_of_digits value "256" (by decide) h2
    decide
  by_cases h3 : strToLower value = "384"
  · obtain rfl := strToLower_eq_of_digits value "384" (by decide) h3
    decide
  by_cases h4 : strToLower value = "512"
  · obtain rfl := strToLower_eq_of_digits value "512" (by decide) h4
    decide
  have hne224 : value ≠ "224" := fun hv =>
    h1 (hv ▸ (by decide : strToLower "224" = "224"))
  have hne256 : value ≠ "256" := fun hv =>
    h2 (hv ▸ (by decide : strToLower "256" = "256"))
  have hne384 : value ≠ "384" := fun hv =>
    h3 (hv ▸ (by decide : strToLower "384" = "384"))
  have hne512 : value ≠ "512" := fun hv =>
    h4 (hv ▸ (by decide : strToLower "512" = "512"))
  have herr : Mode.tryFrom value = .error "Invalide mode selected" := by
    unfold Mode.tryFrom
    simp [h1, h2, h3, h4]
  simp [herr, hne224, hne256, hne384, hne512, h1, h2, h3, h4, Except.isOk,
    Except.toBool]

/-- Witness for C7 at a concrete accepted selector. -/
theorem sha3_c7_witness : Mode.tryFrom "384" = .ok (Mode.sha3_384 104) :=
  (sha3_c7 "384").2.2.1.mpr rfl

theorem rate_facts (mode : Mode) (hm : mode ∈ standardModes) :
    2 ≤ mode.bitRate := by
  simp only [standardModes, List.mem_cons, List.not_mem_nil, or_false] at hm
  rcases hm with rfl | rfl | rfl | rfl <;> decide

theorem fileReadsAux_eq (fuel rate : Nat) (input : List Nat)
    (hf : input.length < fuel) (hr : 0 < rate) :
    fileReadsAux fuel rate input =
      (dataBlocksAux fuel rate input).map ReadOutcome.full ++
        [ReadOutcome.eof (finalChunk rate input)] := by
  induction fuel generalizing input with
  | zero => omega
  | succ fuel ih =>
    unfold fileReadsAux dataBlocksAux
    by_cases h : 0 < rate ∧ rate ≤ input.length
    · rw [if_pos h, if_pos h]
      have hlen : (input.drop rate).length < fuel := by
        simp only [List.length_drop]; omega
      rw [ih _ hlen]
      simp only [List.map_cons, List.cons_append]
      congr 3
      unfold finalChunk
      rw [List.drop_drop]
      congr 1
      have hsplit : input.length = (input.length - rate) + rate := by omega
      have hdiv : input.length / rate = (input.length - rate) / rate + 1 := by
        conv_lhs => rw [hsplit]
        rw [Nat.add_div_right _ hr]
      simp only [List.length_drop]
      rw [hdiv]
      ring_nf
    · rw [if_neg h, if_neg h]
      have hlt : input.length < rate := by omega
      unfold finalChunk
      rw [Nat.div_eq_of_lt hlt]
      simp

theorem dataBlocksAux_length (fuel rate : Nat) (input : List Nat)
    (hf : input.length < fuel) (hr : 0 < rate) :
    (dataBlocksAux fuel rate input).length = input.length / rate := by
  induction fuel generalizing input with
  | zero => omega
  | succ fuel ih =>
    unfold dataBlocksAux
    by_cases h : 0 < rate ∧ rate ≤ input.length
    · rw [if_pos h]
      simp only [List.length_cons]
      rw [ih _ (by simp only [List.length_drop]; omega)]
      simp only [List.length_drop]
      have hsplit : input.length = (input.length - rate) + rate := by omega
      conv_rhs => rw [hsplit]
      rw [Nat.add_div_right _ hr]
    · rw [if_neg h]
      have hlt : input.length < rate := by omega
      simp [Nat.div_eq_of_lt hlt]

theorem finalChunk_length (rate : Nat) (input : List Nat) :
    (finalChunk rate input).length = input.length % rate := by
  unfold finalChunk
  simp only [List.length_drop]
  have key : rate * (input.length / rate) + input.length % rate = input.length :=
    Nat.div_add_mod _ _
  have key2 : input.length / rate * rate = rate * (input.length / rate) :=
    Nat.mul_comm _ _
  omega

theorem absorbLoop_blocks (rate file_size : Nat) (blocks : List (List Nat))
    (c : List Nat) (s : State) :
    absorbLoop rate file_size
        (blocks.map ReadOutcome.full ++ [ReadOutcome.eof c]) s =
      some (keccakP (foldBlock rate
          (padBuffer rate file_size
            (reverse_bits_in_place (readBuffer rate (ReadOutcome.eof c))))
          (absorbDataBlocks rate blocks s)), blocks.length + 1) := by
  induction blocks generalizing s with
  | nil => rfl
  | cons b bs ih =>
    have hstep : absorbLoop rate file_size
        ((b :: bs).map ReadOutcome.full ++ [ReadOutcome.eof c]) s =
        (absorbLoop rate file_size (bs.map ReadOutcome.full ++ [ReadOutcome.eof c])
            (keccakP (foldBlock rate (reverse_bits_in_place b) s))).map
          (fun p => (p.1, p.2 + 1)) := rfl
    rw [hstep, ih]
    rfl

theorem absorbLoop_fileReads (rate file_size : Nat) (input : List Nat)
    (hr : 0 < rate) (s : State) :
    absorbLoop rate file_size (fileReads rate input) s =
      some (keccakP (foldBlock rate
          (padBuffer rate file_size
            (reverse_bits_in_place
              (readBuffer rate (ReadOutcome.eof (finalChunk rate input)))))
          (absorbDataBlocks rate (dataBlocks rate input) s)),
        input.length / rate + 1) := by
  unfold fileReads dataBlocks
  rw [fileReadsAux_eq _ _ _ (by omega) hr, absorbLoop_blocks,
    dataBlocksAux_length _ _ _ (by omega) hr]

theorem padOnlyBlock_of_multiple (rate file_size : Nat) (hr : 2 ≤ rate)
    (hmul : file_size % rate = 0) :
    padBuffer rate file_size
        (reverse_bits_in_place (readBuffer rate (ReadOutcome.eof []))) =
      padOnlyBlock rate := by
  have hbuf : readBuffer rate (ReadOutcome.eof []) = List.replicate rate 0 := by
    simp [readBuffer]
  have hrev : reverse_bits_in_place (List.replicate rate 0) =
      List.replicate rate 0 := by
    simp only [reverse_bits_in_place, List.map_replicate]
    norm_num [show reverseByte 0 = 0 from rfl]
  rw [hbuf, hrev]
  unfold padBuffer padOnlyBlock
  rw [hmul]
  rw [if_neg (by omega)]

set_option maxRecDepth 1000000 in
/-- C4: when the input length is an exact multiple of the rate, the loop
absorbs all the full data blocks and then one extra all-padding block (suffix
`SHA_SUFFIX` at offset 0, terminator 1 at offset `rate - 1`, zeros strictly
between), each block followed by one permutation call, for a total of
`len / rate + 1` permutation calls. -/
theorem sha3_c4 (mode : Mode) (input : List Nat) (s : State)
    (hm : mode ∈ standardModes) (hlen : input.length % mode.bitRate = 0) :
    absorbLoop mode.bitRate input.length (fileReads mode.bitRate input) s =
      some (keccakP (foldBlock mode.bitRate (padOnlyBlock mode.bitRate)
          (absorbDataBlocks mode.bitRate (dataBlocks mode.bitRate input) s)),
        input.length / mode.bitRate + 1) ∧
    (padOnlyBlock mode.bitRate).getD 0 0 = SHA_SUFFIX ∧
    (padOnlyBlock mode.bitRate).getD (mode.bitRate - 1) 0 = 1 ∧
    (∀ i, i < mode.bitRate - 1 → 0 < i →
      (padOnlyBlock mode.bitRate).getD i 0 = 0) := by
  have hr2 : 2 ≤ mode.bitRate := rate_facts mode hm
  have hchunk : finalChunk mode.bitRate input = [] := by
    rw [← List.length_eq_zero, finalChunk_length, hlen]
  refine ⟨?_, ?_, ?_, ?_⟩
  · rw [absorbLoop_fileReads _ _ _ (by omega), hchunk,
      padOnlyBlock_of_multiple _ _ hr2 hlen]
  · unfold padOnlyBlock
    rw [List.getD_eq_getElem?_getD, List.getElem?_set_ne (by omega),
      List.getElem?_set_self (by simp; omega)]
    rfl
  · unfold padOnlyBlock
    rw [List.getD_eq_getElem?_getD,
      List.getElem?_set_self (by simp; omega)]
    rfl
  · intro i hi hpos
    unfold padOnlyBlock
    rw [List.getD_eq_getElem?_getD, List.getElem?_set_ne (by omega),
      List.getElem?_set_ne (by omega), List.getElem?_replicate_of_lt (by omega)]
    rfl

/-- Witness for C4 at the empty input in the 512-bit mode. -/
theorem sha3_c4_witness :
    Mode.sha3_512 72 ∈ standardModes ∧
    (List.length ([] : List Nat)) % (Mode.sha3_512 72).bitRate = 0 ∧
    (absorbLoop (Mode.sha3_512 72).bitRate (List.length ([] : List Nat))
        (fileReads (Mode.sha3_512 72).bitRate [])
        (Sponge.new (Mode.sha3_512 72)).state =
      some (keccakP (foldBlock (Mode.sha3_512 72).bitRate
          (padOnlyBlock (Mode.sha3_512 72).bitRate)
          (absorbDataBlocks (Mode.sha3_512 72).bitRate
            (dataBlocks (Mode.sha3_512 72).bitRate [])
            (Sponge.new (Mode.sha3_512 72)).state)),
        (List.length ([] : List Nat)) / (Mode.sha3_512 72).bitRate + 1) ∧
    (padOnlyBlock (Mode.sha3_512 72).bitRate).getD 0 0 = SHA_SUFFIX ∧
    (padOnlyBlock (Mode.sha3_512 72).bitRate).getD
        ((Mode.sha3_512 72).bitRate - 1) 0 = 1 ∧
    (∀ i, i < (Mode.sha3_512 72).bitRate - 1 → 0 < i →
      (padOnlyBlock (Mode.sha3_512 72).bitRate).getD i 0 = 0)) :=
  ⟨by decide, by decide,
    sha3_c4 (Mode.sha3_512 72) [] (Sponge.new (Mode.sha3_512 72)).state
      (by decide) (by decide)⟩

theorem replicate_set_last (k : Nat) :
    (List.replicate (k + 1) (0 : Nat)).set k 1 = List.replicate k 0 ++ [1] := by
  induction k with
  | zero => rfl
  | succ k ih =>
    rw [List.replicate_succ, List.set_cons_succ, ih]
    rfl

theorem padBuffer_final (rate file_size : Nat) (chunk : List Nat) (hr : 2 ≤ rate)
    (hc : chunk.length = file_size % rate) :
    (file_size % rate = rate - 1 →
      padBuffer rate file_size
          (reverse_bits_in_place (readBuffer rate (ReadOutcome.eof chunk))) =
        chunk.map reverseByte ++ [97]) ∧
    (file_size % rate ≠ rate - 1 →
      padBuffer rate file_size
          (reverse_bits_in_place (readBuffer rate (ReadOutcome.eof chunk))) =
        chunk.map reverseByte ++
          96 :: (List.replicate (rate - file_size % rate - 2) 0 ++ [1])) := by
  have hp : file_size % rate < rate := Nat.mod_lt _ (by omega)
  have hbuf : reverse_bits_in_place (readBuffer rate (ReadOutcome.eof chunk)) =
      chunk.map reverseByte ++ List.replicate (rate - file_size % rate) 0 := by
    simp only [readBuffer, reverse_bits_in_place, List.map_append,
      List.map_replicate]
    rw [hc, show reverseByte 0 = 0 from rfl]
  have hlen : (chunk.map reverseByte).length = file_size % rate := by
    simpa using hc
  constructor
  · intro hlast
    rw [hbuf]
    unfold padBuffer
    rw [if_pos hlast, List.set_append_right _ _ (by omega),
      show rate - file_size % rate = 0 + 1 from by omega, List.replicate_succ,
      show file_size % rate - (chunk.map reverseByte).length = 0 from by omega,
      List.set_cons_zero]
    rfl
  · intro hne
    have hp2 : file_size % rate ≤ rate - 2 := by omega
    rw [hbuf]
    unfold padBuffer
    rw [if_neg hne, List.set_append_right _ _ (by omega),
      show file_size % rate - (chunk.map reverseByte).length = 0 from by omega,
      show rate - file_size % rate = (rate - file_size % rate - 1) + 1 from
        by omega,
      List.replicate_succ, List.set_cons_zero,
      List.set_append_right _ _ (by omega),
      show rate - 1 - (chunk.map reverseByte).length =
          (rate - file_size % rate - 2) + 1 from by omega,
      List.set_cons_succ,
      show rate - file_size % rate - 1 = (rate - file_size % rate - 2) + 1 from
        by omega,
      replicate_set_last]
    rfl

set_option maxRecDepth 1000000 in
/-- C5: the file's reads end with the short end-of-input chunk of length
`len mod rate`; in the padded final block the data bytes appear bit-mirrored
followed, at offset `p = len mod rate`, either by the single byte 97 (0x61,
when only one slot remains) or by 96 (0x60) at offset `p`, zeros strictly
between, and 1 (0x01) at offset `rate - 1`; the constants are written in
already-mirrored form and are not themselves passed through the byte
mirror. -/
theorem sha3_c5 (mode : Mode) (input : List Nat) (hm : mode ∈ standardModes) :
    fileReads mode.bitRate input =
      (dataBlocks mode.bitRate input).map ReadOutcome.full ++
        [ReadOutcome.eof (finalChunk mode.bitRate input)] ∧
    (finalChunk mode.bitRate input).length = input.length % mode.bitRate ∧
    (input.length % mode.bitRate = mode.bitRate - 1 →
      padBuffer mode.bitRate input.length
          (reverse_bits_in_place
            (readBuffer mode.bitRate
              (ReadOutcome.eof (finalChunk mode.bitRate input)))) =
        (finalChunk mode.bitRate input).map reverseByte ++ [97]) ∧
    (input.length % mode.bitRate ≠ mode.bitRate - 1 →
      padBuffer mode.bitRate input.length
          (reverse_bits_in_place
            (readBuffer mode.bitRate
              (ReadOutcome.eof (finalChunk mode.bitRate input)))) =
        (finalChunk mode.bitRate input).map reverseByte ++
          96 :: (List.replicate
            (mode.bitRate - input.length % mode.bitRate - 2) 0 ++ [1])) := by
  have hr2 : 2 ≤ mode.bitRate := rate_facts mode hm
  have hchunk := finalChunk_length mode.bitRate input
  have hpad := padBuffer_final mode.bitRate input.length
    (finalChunk mode.bitRate input) hr2 hchunk
  exact ⟨by
    unfold fileReads dataBlocks
    exact fileReadsAux_eq _ _ _ (by omega) (by omega), hchunk, hpad.1, hpad.2⟩

/-- Witness for C5: a 71-byte input in the 512-bit mode, hitting the
single-slot combined-byte case. -/
theorem sha3_c5_witness :
    Mode.sha3_512 72 ∈ standardModes ∧
    (fileReads (Mode.sha3_512 72).bitRate (List.replicate 71 5) =
      (dataBlocks (Mode.sha3_512 72).bitRate (List.replicate 71 5)).map
          ReadOutcome.full ++
        [ReadOutcome.eof
          (finalChunk (Mode.sha3_512 72).bitRate (List.replicate 71 5))] ∧
    (finalChunk (Mode.sha3_512 72).bitRate (List.replicate 71 5)).length =
      (List.replicate 71 5 : List Nat).length % (Mode.sha3_512 72).bitRate ∧
    ((List.replicate 71 5 : List Nat).length % (Mode.sha3_512 72).bitRate =
        (Mode.sha3_512 72).bitRate - 1 →
      padBuffer (Mode.sha3_512 72).bitRate
          (List.replicate 71 5 : List Nat).length
          (reverse_bits_in_place
            (readBuffer (Mode.sha3_512 72).bitRate
              (ReadOutcome.eof
                (finalChunk (Mode.sha3_512 72).bitRate
                  (List.replicate 71 5))))) =
        (finalChunk (Mode.sha3_512 72).bitRate
            (List.replicate 71 5)).map reverseByte ++ [97]) ∧
    ((List.replicate 71 5 : List Nat).length % (Mode.sha3_512 72).bitRate ≠
        (Mode.sha3_512 72).bitRate - 1 →
      padBuffer (Mode.sha3_512 72).bitRate
          (List.replicate 71 5 : List Nat).length
          (reverse_bits_in_place
            (readBuffer (Mode.sha3_512 72).bitRate
              (ReadOutcome.eof
                (finalChunk (Mode.sha3_512 72).bitRate
                  (List.replicate 71 5))))) =
        (finalChunk (Mode.sha3_512 72).bitRate
            (List.replicate 71 5)).map reverseByte ++
          96 :: (List.replicate
            ((Mode.sha3_512 72).bitRate -
              (List.replicate 71 5 : List Nat).length %
                (Mode.sha3_512 72).bitRate - 2) 0 ++ [1]))) :=
  ⟨by decide, sha3_c5 (Mode.sha3_512 72) (List.replicate 71 5) (by decide)⟩

theorem revBitsAux_lt (n : Nat) : ∀ (b acc m : Nat), acc < 2 ^ m →
    revBitsAux n b acc < 2 ^ (m + n) := by
  induction n with
  | zero => intro b acc m h; simpa using h
  | succ n ih =>
    intro b acc m h
    have hstep : (acc <<< 1 ||| (b &&& 1)) < 2 ^ (m + 1) := by
      apply Nat.or_lt_two_pow
      · rw [Nat.shiftLeft_eq]
        have h1 : (2 : Nat) ^ 1 = 2 := rfl
        have h2 : (2 : Nat) ^ (m + 1) = 2 ^ m * 2 := by rw [Nat.pow_succ]
        rw [h1, h2]
        omega
      · have h1 : b &&& 1 ≤ 1 := Nat.and_le_right
        have h2 : (2 : Nat) ^ 1 ≤ 2 ^ (m + 1) :=
          Nat.pow_le_pow_right (by omega) (by omega)
        have h3 : (2 : Nat) ^ 1 = 2 := rfl
        omega
    have := ih (b >>> 1) _ _ hstep
    rw [show m + (n + 1) = (m + 1) + n from by omega]
    exact this

theorem reverseByte_lt (b : Nat) : reverseByte b < 256 := by
  have h := revBitsAux_lt 8 b 0 0 (by decide)
  norm_num at h
  exact h

theorem fromBeBytes_acc_lt (bs : List Nat) : ∀ (acc : Nat),
    (∀ b ∈ bs, b < 256) →
    bs.foldl (fun a b => a * 256 + b) acc < (acc + 1) * 256 ^ bs.length := by
  induction bs with
  | nil => intro acc _; simp
  | cons b bs ih =>
    intro acc hbs
    have hb : b < 256 := hbs b (by simp)
    have hrec := ih (acc * 256 + b) (fun x hx => hbs x (by simp [hx]))
    simp only [List.foldl_cons, List.length_cons]
    apply lt_of_lt_of_le hrec
    have h1 : acc * 256 + b + 1 ≤ (acc + 1) * 256 := by omega
    calc (acc * 256 + b + 1) * 256 ^ bs.length
        ≤ ((acc + 1) * 256) * 256 ^ bs.length := Nat.mul_le_mul_right _ h1
      _ = (acc + 1) * 256 ^ (bs.length + 1) := by ring

theorem fromBeBytes_lt (bs : List Nat) (hbs : ∀ b ∈ bs, b < 256)
    (hlen : bs.length ≤ 8) : fromBeBytes bs < 2 ^ 64 := by
  have h := fromBeBytes_acc_lt bs 0 hbs
  simp only [Nat.zero_add, Nat.one_mul] at h
  have h2 : (256 : Nat) ^ bs.length ≤ 256 ^ 8 :=
    Nat.pow_le_pow_right (by omega) hlen
  have h3 : (256 : Nat) ^ 8 = 2 ^ 64 := by norm_num
  unfold fromBeBytes
  omega

theorem static_reverse_u64_bits_lt (w : Nat) :
    static_reverse_u64_bits w < 2 ^ 64 := by
  apply fromBeBytes_lt
  · intro b hb
    obtain ⟨c, hc, rfl⟩ := List.mem_map.mp hb
    exact reverseByte_lt c
  · simp [toBeBytes]

theorem getD_cases {α : Type} (l : List α) (i : Nat) (d : α) :
    l.getD i d = d ∨ l.getD i d ∈ l := by
  rw [List.getD_eq_getElem?_getD]
  cases h : l[i]? with
  | none => simp
  | some a => exact Or.inr (by simpa using List.getElem?_mem h)

theorem sget_grid_lt (f : Nat → Nat → Nat) (hf : ∀ a b, f a b < 2 ^ 64)
    (x y : Nat) : sget (grid f) x y < 2 ^ 64 := by
  unfold sget
  rcases getD_cases (grid f) x [] with h | h
  · rw [h, List.getD_nil]
    positivity
  · obtain ⟨a, _, heq⟩ := List.mem_map.mp h
    rw [← heq]
    rcases getD_cases ((List.range 5).map fun y => f a y) y 0 with h2 | h2
    · rw [h2]; positivity
    · obtain ⟨c, _, hceq⟩ := List.mem_map.mp h2
      rw [← hceq]
      exact hf a c

theorem natToHexAux_length_le (fuel : Nat) : ∀ (n k : Nat), n ≤ fuel →
    n < 16 ^ k → 0 < k → (natToHexAux fuel n).length ≤ k := by
  induction fuel with
  | zero => intro n k _ _ hk; simpa [natToHexAux] using hk
  | succ fuel ih =>
    intro n k hf hn hk
    unfold natToHexAux
    by_cases h : n < 16
    · rw [if_pos h]; simpa using hk
    · rw [if_neg h]
      simp only [List.length_append, List.length_cons, List.length_nil]
      have hk2 : 2 ≤ k := by
        by_contra hc
        have hk1 : k = 1 := by omega
        subst hk1
        simp at hn
        omega
      have hdiv : n / 16 < 16 ^ (k - 1) := by
        rw [Nat.div_lt_iff_lt_mul (by omega)]
        calc n < 16 ^ k := hn
          _ = 16 ^ (k - 1) * 16 := by
            rw [← Nat.pow_succ]
            congr 1
            omega
      have hfuel : n / 16 ≤ fuel := by
        have : n / 16 < n := Nat.div_lt_self (by omega) (by omega)
        omega
      have := ih (n / 16) (k - 1) hfuel hdiv (by omega)
      omega

theorem format016x_length (w : Nat) (hw : w < 2 ^ 64) :
    (format016x w).length = 16 := by
  have hlen : (natToHexAux w w).length ≤ 16 := by
    apply natToHexAux_length_le w w 16 le_rfl _ (by omega)
    rw [show (16 : Nat) ^ 16 = 2 ^ 64 from by norm_num]
    exact hw
  simp only [format016x, natToHexDigits, String.length_mk, List.length_append,
    List.length_replicate]
  omega

theorem foldl_append_length (l : List String) : ∀ acc : String,
    (l.foldl (fun r s => r ++ s) acc).length =
      acc.length + (l.map String.length).sum := by
  induction l with
  | nil => intro acc; simp
  | cons s l ih =>
    intro acc
    simp only [List.foldl_cons, List.map_cons, List.sum_cons, ih,
      String.length_append]
    omega

theorem join_length (l : List String) :
    (String.join l).length = (l.map String.length).sum := by
  have h := foldl_append_length l ""
  simpa [String.join] using h

theorem data_length (s : String) : s.data.length = s.length := rfl

theorem truncateStr_length (s : String) (n : Nat) :
    (truncateStr s n).length = min n s.length := by
  rw [truncateStr, String.length_mk, List.length_take, data_length]

theorem squeeze_length (mode : Mode) (st : State) (hm : mode ∈ standardModes) :
    (Sponge.mk mode st).squeeze.length = digestHexLen mode := by
  have hjoin : ∀ k : Nat,
      (String.join ((List.range k).map fun lane =>
        format016x (sget (grid fun x y => static_reverse_u64_bits (sget st x y))
          (lane % 5) (lane / 5)))).length = k * 16 := by
    intro k
    rw [join_length, List.map_map]
    rw [List.map_congr_left (g := fun _ => 16) (fun lane _ => by
      exact format016x_length _
        (sget_grid_lt _ (fun a b => static_reverse_u64_bits_lt _) _ _))]
    rw [List.map_const']
    simp [List.sum_const_nat]
  simp only [standardModes, List.mem_cons, List.not_mem_nil, or_false] at hm
  rcases hm with rfl | rfl | rfl | rfl
  · show (truncateStr (String.join ((List.range (144 / 8)).map fun lane =>
        format016x (sget (grid fun x y => static_reverse_u64_bits (sget st x y))
          (lane % 5) (lane / 5)))) (224 / 4)).length = 56
    rw [truncateStr_length, hjoin (144 / 8)]
    decide
  · show (truncateStr (String.join ((List.range (136 / 8)).map fun lane =>
        format016x (sget (grid fun x y => static_reverse_u64_bits (sget st x y))
          (lane % 5) (lane / 5)))) (256 / 4)).length = 64
    rw [truncateStr_length, hjoin (136 / 8)]
    decide
  · show (truncateStr (String.join ((List.range (104 / 8)).map fun lane =>
        format016x (sget (grid fun x y => static_reverse_u64_bits (sget st x y))
          (lane % 5) (lane / 5)))) (384 / 4)).length = 96
    rw [truncateStr_length, hjoin (104 / 8)]
    decide
  · show (truncateStr (String.join ((List.range (72 / 8)).map fun lane =>
        format016x (sget (grid fun x y => static_reverse_u64_bits (sget st x y))
          (lane % 5) (lane / 5)))) (512 / 4)).length = 128
    rw [truncateStr_length, hjoin (72 / 8)]
    decide

set_option maxRecDepth 1000000 in
/-- C6: for every mode and every input, the digest string has length exactly
56, 64, 96 or 128 hex characters for the 224-, 256-, 384- and 512-bit modes
respectively. -/
theorem sha3_c6 (mode : Mode) (input : List Nat) (d : String)
    (hm : mode ∈ standardModes) (h : sha3File mode input = some d) :
    d.length = digestHexLen mode := by
  have hr : 0 < mode.bitRate := by have := rate_facts mode hm; omega
  have h' : ((absorbLoop mode.bitRate input.length (fileReads mode.bitRate input)
        (Sponge.new mode).state).map (fun p => Sponge.mk mode p.1)).map
      Sponge.squeeze = some d := h
  rw [absorbLoop_fileReads _ _ _ hr] at h'
  simp only [Option.map_some', Option.some.injEq] at h'
  rw [← h']
  exact squeeze_length mode _ hm

set_option maxRecDepth 1000000 in
/-- Witness for C6 in the 512-bit mode at the empty input. -/
theorem sha3_c6_witness :
    Mode.sha3_512 72 ∈ standardModes ∧
    sha3File (Mode.sha3_512 72) [] =
      some "a69f73cca23a9ac5c8b567dc185a756e97c982164fe25859e0d1dcc1475c80a615b2123af1f5f94c11e3e9402c3ac558f500199d95b6d3e301758586281dcd26" ∧
    ("a69f73cca23a9ac5c8b567dc185a756e97c982164fe25859e0d1dcc1475c80a615b2123af1f5f94c11e3e9402c3ac558f500199d95b6d3e301758586281dcd26" : String).length =
      digestHexLen (Mode.sha3_512 72) :=
  ⟨by decide, by decide,
    sha3_c6 (Mode.sha3_512 72) []
      "a69f73cca23a9ac5c8b567dc185a756e97c982164fe25859e0d1dcc1475c80a615b2123af1f5f94c11e3e9402c3ac558f500199d95b6d3e301758586281dcd26"
      (by decide) (by decide)⟩

theorem grid_dims (f : Nat → Nat → Nat) :
    (grid f).length = 5 ∧ ∀ row ∈ grid f, row.length = 5 := by
  constructor
  · rfl
  · intro row hrow
    obtain ⟨a, _, heq⟩ := List.mem_map.mp hrow
    rw [← heq]
    simp

theorem iota_grid_dims (f : Nat → Nat → Nat) (r : Nat) :
    (iota (grid f) r).length = 5 ∧ ∀ row ∈ iota (grid f) r, row.length = 5 := by
  unfold iota sset
  constructor
  · rw [List.length_set]
    exact (grid_dims f).1
  · intro row hrow
    rcases List.mem_or_eq_of_mem_set hrow with h | h
    · exact (grid_dims f).2 row h
    · rw [h, List.length_set]
      rfl

theorem keccakRound_dims (s : State) (r : Nat) :
    (keccakRound s r).length = 5 ∧ ∀ row ∈ keccakRound s r, row.length = 5 :=
  iota_grid_dims _ r

theorem foldl_keccakRound_dims (l : List Nat) : ∀ t : State,
    (t.length = 5 ∧ ∀ row ∈ t, row.length = 5) →
    ((l.foldl keccakRound t).length = 5 ∧
      ∀ row ∈ l.foldl keccakRound t, row.length = 5) := by
  induction l with
  | nil => intro t ht; simpa using ht
  | cons a l ih => intro t _; exact ih _ (keccakRound_dims t a)

theorem keccakP_dims (s : State) :
    (keccakP s).length = 5 ∧ ∀ row ∈ keccakP s, row.length = 5 := by
  rw [keccakP, show List.range 24 =
      [0, 1, 2, 3, 4, 5, 6, 7, 8, 9, 10, 11, 12, 13, 14, 15, 16, 17, 18, 19,
        20, 21, 22, 23] from by decide, List.foldl_cons]
  exact foldl_keccakRound_dims _ _ (keccakRound_dims s 0)

/-- C9: the 24-round permutation is total and cannot go out of bounds: every
CAM entry indexed by an in-range coordinate exists and is itself in range,
the RHO_TABLE lookup through CAM succeeds, the IOTA_TABLE lookup for every
round index below 24 succeeds, all modular state indices used by the five
steps are in range, rotation always yields a 64-bit word, and the
permutation yields a well-formed 5×5 state for any input state. -/
theorem sha3_c9 (s : State) (x y round : Nat)
    (hx : x < 5) (hy : y < 5) (hround : round < 24) :
    (∃ cx, CAM.get? x = some cx ∧ cx < 5) ∧
    (∃ row, RHO_TABLE.get? (CAM.getD x 0) = some row ∧
      ∃ e, row.get? (CAM.getD y 0) = some e) ∧
    (∃ rc, IOTA_TABLE.get? round = some rc) ∧
    (x + 4) % 5 < 5 ∧ (x + 1) % 5 < 5 ∧ (x + 2) % 5 < 5 ∧
    (x + 3 * y) % 5 < 5 ∧
    (∀ w n, w < 2 ^ 64 → rotr64 w n < 2 ^ 64) ∧
    (keccakP s).length = 5 ∧ (∀ row ∈ keccakP s, row.length = 5) := by
  refine ⟨?_, ?_, ?_, Nat.mod_lt _ (by omega), Nat.mod_lt _ (by omega),
    Nat.mod_lt _ (by omega), Nat.mod_lt _ (by omega), ?_, (keccakP_dims s).1,
    (keccakP_dims s).2⟩
  · interval_cases x <;> exact ⟨_, rfl, by decide⟩
  · interval_cases x <;> interval_cases y <;> exact ⟨_, rfl, _, rfl⟩
  · interval_cases round <;> exact ⟨_, rfl⟩
  · intro w n hw
    unfold rotr64
    apply Nat.or_lt_two_pow
    · rw [Nat.shiftRight_eq_div_pow]
      exact lt_of_le_of_lt (Nat.div_le_self _ _) hw
    · rw [Nat.shiftLeft_eq]
      have h1 : w % 2 ^ (n % 64) < 2 ^ (n % 64) := Nat.mod_lt _ (by positivity)
      have h2 : (2 : Nat) ^ (n % 64) * 2 ^ (64 - n % 64) = 2 ^ 64 := by
        rw [← Nat.pow_add]
        congr 1
        omega
      calc (w % 2 ^ (n % 64)) * 2 ^ (64 - n % 64)
          < 2 ^ (n % 64) * 2 ^ (64 - n % 64) :=
            (Nat.mul_lt_mul_right (by positivity)).mpr h1
        _ = 2 ^ 64 := h2

/-- Witness for C9 at the all-zero state and concrete coordinates. -/
theorem sha3_c9_witness :
    (1 : Nat) < 5 ∧ (2 : Nat) < 5 ∧ (3 : Nat) < 24 ∧
    ((∃ cx, CAM.get? 1 = some cx ∧ cx < 5) ∧
    (∃ row, RHO_TABLE.get? (CAM.getD 1 0) = some row ∧
      ∃ e, row.get? (CAM.getD 2 0) = some e) ∧
    (∃ rc, IOTA_TABLE.get? 3 = some rc) ∧
    (1 + 4) % 5 < 5 ∧ (1 + 1) % 5 < 5 ∧ (1 + 2) % 5 < 5 ∧
    (1 + 3 * 2) % 5 < 5 ∧
    (∀ w n, w < 2 ^ 64 → rotr64 w n < 2 ^ 64) ∧
    (keccakP (List.replicate 5 (List.replicate 5 0))).length = 5 ∧
    (∀ row ∈ keccakP (List.replicate 5 (List.replicate 5 0)),
      row.length = 5)) :=
  ⟨by decide, by decide, by decide,
    sha3_c9 (List.replicate 5 (List.replicate 5 0)) 1 2 3
      (by decide) (by decide) (by decide)⟩

end Sha3sum
